import Mathlib

/-!
Verification of the segment playback and boundary-adjustment engine of
Anki-slicer (src/anki_slicer/player.py, src/SegmentAdjusterWidget.py,
src/anki_slicer/mobile_screens.py).

Times are modelled as rationals (the Python code uses floats but all the
operations verified here are order comparisons, `min`/`max`, additions and
subtractions).  Python's `int()` truncation toward zero is modelled
explicitly where it matters.
-/

namespace AnkiSlicer

/-- A parsed subtitle entry, from `SubtitleEntry` in src/anki_slicer/subs.py:
an index, a start time and an end time in seconds, and the text. -/
structure SubtitleEntry where
  index : ℕ
  start_time : ℚ
  end_time : ℚ
  text : String
deriving DecidableEq, Repr

/-! ## Index resolution: `find_subtitle_index` (src/anki_slicer/player.py:1056-1073) -/

/-- The scan loop of `find_subtitle_index`: for each entry in order, return the
current position if the entry's time range contains `p`, or if `p` lies
strictly between this entry's end and the next entry's start; `none` models
falling off the end of the loop. -/
def findLoop (p : ℚ) : List SubtitleEntry → Option ℕ
  | [] => none
  | [x] => if x.start_time ≤ p ∧ p ≤ x.end_time then some 0 else none
  | x :: y :: rest =>
    if x.start_time ≤ p ∧ p ≤ x.end_time then some 0
    else if x.end_time < p ∧ p < y.start_time then some 0
    else (findLoop p (y :: rest)).map (· + 1)

/-- `find_subtitle_index(position_sec)` from src/anki_slicer/player.py:
empty list → 0; position at or before the first start → 0; position at or
after the last end → last index; otherwise the scan loop, with 0 as the
defensive fallback. -/
def findSubtitleIndex (entries : List SubtitleEntry) (p : ℚ) : ℕ :=
  match entries with
  | [] => 0
  | e0 :: rest =>
    if p ≤ e0.start_time then 0
    else if ((e0 :: rest).getLast (List.cons_ne_nil e0 rest)).end_time ≤ p then rest.length
    else (findLoop p (e0 :: rest)).getD 0

/-- Whether index `i` "owns" position `p` in the sense of the spec's rule:
either `start_time[i] ≤ p ≤ end_time[i]`, or `p` lies strictly in the gap
between `end_time[i]` and `start_time[i+1]` (the preceding entry owns its
trailing gap). -/
def ownsB (entries : List SubtitleEntry) (p : ℚ) (i : ℕ) : Bool :=
  match entries[i]? with
  | none => false
  | some x =>
    decide (x.start_time ≤ p ∧ p ≤ x.end_time) ||
      match entries[i + 1]? with
      | none => false
      | some y => decide (x.end_time < p ∧ p < y.start_time)

/-- Scan indices `k, k+1, …` (at most `fuel` of them) and return the first one
that owns `p`. -/
def firstOwnedFrom (entries : List SubtitleEntry) (p : ℚ) : ℕ → ℕ → Option ℕ
  | 0, _ => none
  | fuel + 1, k => if ownsB entries p k then some k else firstOwnedFrom entries p fuel (k + 1)

/-- The spec's statement of the index-resolution rule, written independently
of the loop in the code: empty → 0; `p` at or before the first start → 0;
`p` at or after the last end → last index; otherwise the first index that owns
`p`, with 0 when no entry matches. -/
def findIndexAtClaim (entries : List SubtitleEntry) (p : ℚ) : ℕ :=
  match entries with
  | [] => 0
  | e0 :: rest =>
    if p ≤ e0.start_time then 0
    else if ((e0 :: rest).getLast (List.cons_ne_nil e0 rest)).end_time ≤ p then rest.length
    else (firstOwnedFrom (e0 :: rest) p (e0 :: rest).length 0).getD 0

/-! ### Bridging the code's loop and the spec's scan -/

theorem ownsB_of_get (L : List SubtitleEntry) (p : ℚ) (k : ℕ) (x y : SubtitleEntry)
    (hx : L[k]? = some x) (hy : L[k + 1]? = some y) :
    ownsB L p k =
      (decide (x.start_time ≤ p ∧ p ≤ x.end_time) ||
        decide (x.end_time < p ∧ p < y.start_time)) := by
  unfold ownsB
  rw [hx, hy]

theorem ownsB_of_get_last (L : List SubtitleEntry) (p : ℚ) (k : ℕ) (x : SubtitleEntry)
    (hx : L[k]? = some x) (hy : L[k + 1]? = none) :
    ownsB L p k = decide (x.start_time ≤ p ∧ p ≤ x.end_time) := by
  unfold ownsB
  rw [hx, hy]
  simp

theorem findLoop_eq_firstOwnedFrom (p : ℚ) (l : List SubtitleEntry) :
    ∀ (L : List SubtitleEntry) (k : ℕ), L.drop k = l →
      (findLoop p l).map (· + k) = firstOwnedFrom L p (L.length - k) k := by
  induction l with
  | nil =>
    intro L k hk
    have hlen : L.length ≤ k := by
      have := congrArg List.length hk
      simp only [List.length_drop, List.length_nil] at this
      omega
    have : L.length - k = 0 := by omega
    simp [this, findLoop, firstOwnedFrom]
  | cons x xs ih =>
    intro L k hk
    have hget : L[k]? = some x := by
      have : (L.drop k)[0]? = some x := by rw [hk]; simp
      rw [List.getElem?_drop] at this
      simpa using this
    have hklen : k < L.length := (List.getElem?_eq_some.mp hget).1
    have hlen : L.length - k = (L.length - (k + 1)) + 1 := by omega
    have hdropsucc : L.drop (k + 1) = xs := by
      have h1 : L.drop (k + 1) = (L.drop k).drop 1 := by
        rw [List.drop_drop]
      rw [h1, hk]
      rfl
    cases xs with
    | nil =>
      -- single remaining entry: the loop only tests the in-range condition
      have hlen2 : L.length = k + 1 := by
        have := congrArg List.length hdropsucc
        simp only [List.length_drop, List.length_nil] at this
        omega
      have hget1 : L[k + 1]? = none := List.getElem?_eq_none (by omega)
      have howns := ownsB_of_get_last L p k x hget hget1
      have hfuel : L.length - k = 1 := by omega
      rw [hfuel]
      by_cases hc : x.start_time ≤ p ∧ p ≤ x.end_time
      · simp [findLoop, firstOwnedFrom, howns, hc]
      · simp [findLoop, firstOwnedFrom, howns, hc]
    | cons y ys =>
      have hget1 : L[k + 1]? = some y := by
        have : (L.drop (k + 1))[0]? = some y := by rw [hdropsucc]; simp
        rw [List.getElem?_drop] at this
        simpa using this
      have howns := ownsB_of_get L p k x y hget hget1
      rw [hlen]
      by_cases hc1 : x.start_time ≤ p ∧ p ≤ x.end_time
      · simp [findLoop, firstOwnedFrom, howns, hc1]
      · by_cases hc2 : x.end_time < p ∧ p < y.start_time
        · simp [findLoop, firstOwnedFrom, howns, hc1, hc2]
        · have hrec := ih L (k + 1) hdropsucc
          simp only [findLoop, firstOwnedFrom, howns]
          rw [if_neg (by simp [hc1, hc2]), if_neg (by simp [hc1, hc2]),
            if_neg (by simp [hc1, hc2])]
          rw [← hrec]
          cases findLoop p (y :: ys) with
          | none => rfl
          | some m =>
            show some (m + 1 + k) = some (m + (k + 1))
            congr 1
            omega

theorem findLoop_eq (p : ℚ) (L : List SubtitleEntry) :
    findLoop p L = firstOwnedFrom L p L.length 0 := by
  have h := findLoop_eq_firstOwnedFrom p L L 0 rfl
  simpa using h

theorem firstOwnedFrom_eq_some_iff (L : List SubtitleEntry) (p : ℚ) :
    ∀ (fuel k i : ℕ), firstOwnedFrom L p fuel k = some i ↔
      (k ≤ i ∧ i < k + fuel ∧ ownsB L p i = true ∧
        ∀ j, k ≤ j → j < i → ownsB L p j = false) := by
  intro fuel
  induction fuel with
  | zero =>
    intro k i
    constructor
    · intro h; exact absurd h (by simp [firstOwnedFrom])
    · rintro ⟨h1, h2, -, -⟩; omega
  | succ fuel ih =>
    intro k i
    simp only [firstOwnedFrom]
    by_cases h : ownsB L p k = true
    · rw [if_pos h]
      constructor
      · intro hsome
        have hik : k = i := by injection hsome
        subst hik
        exact ⟨le_refl _, by omega, h, fun j hj1 hj2 => by omega⟩
      · rintro ⟨h1, h2, h3, h4⟩
        have hik : i = k := by
          by_contra hne
          have hki : k < i := lt_of_le_of_ne h1 (Ne.symm hne)
          have hf := h4 k (le_refl _) hki
          rw [h] at hf
          exact absurd hf (by simp)
        rw [hik]
    · rw [if_neg h]
      rw [ih (k + 1) i]
      have hk : ownsB L p k = false := by simpa using h
      constructor
      · rintro ⟨h1, h2, h3, h4⟩
        refine ⟨by omega, by omega, h3, ?_⟩
        intro j hj1 hj2
        rcases Nat.eq_or_lt_of_le hj1 with heq | hlt
        · rw [← heq]; exact hk
        · exact h4 j (by omega) hj2
      · rintro ⟨h1, h2, h3, h4⟩
        have hki : k ≠ i := by
          rintro rfl
          rw [h3] at hk
          exact absurd hk (by simp)
        exact ⟨by omega, by omega, h3, fun j hj1 hj2 => h4 j (by omega) hj2⟩

theorem firstOwnedFrom_eq_none_iff (L : List SubtitleEntry) (p : ℚ) :
    ∀ (fuel k : ℕ), firstOwnedFrom L p fuel k = none ↔
      ∀ j, k ≤ j → j < k + fuel → ownsB L p j = false := by
  intro fuel
  induction fuel with
  | zero =>
    intro k
    simp only [firstOwnedFrom]
    constructor
    · intro _ j hj1 hj2; omega
    · intro _; trivial
  | succ fuel ih =>
    intro k
    simp only [firstOwnedFrom]
    by_cases h : ownsB L p k = true
    · rw [if_pos h]
      constructor
      · intro hc; exact absurd hc (by simp)
      · intro hall
        have := hall k (le_refl _) (by omega)
        rw [h] at this
        exact absurd this (by simp)
    · rw [if_neg h]
      rw [ih (k + 1)]
      have hk : ownsB L p k = false := by simpa using h
      constructor
      · intro hall j hj1 hj2
        rcases Nat.eq_or_lt_of_le hj1 with heq | hlt
        · rw [← heq]; exact hk
        · exact hall j (by omega) (by omega)
      · intro hall j hj1 hj2
        exact hall j (by omega) (by omega)

theorem firstOwned_exists_le (L : List SubtitleEntry) (p : ℚ) (fuel k m : ℕ)
    (hm : ownsB L p m = true) (h1 : k ≤ m) (h2 : m < k + fuel) :
    ∃ i, firstOwnedFrom L p fuel k = some i ∧ i ≤ m := by
  cases heq : firstOwnedFrom L p fuel k with
  | none =>
    have := (firstOwnedFrom_eq_none_iff L p fuel k).mp heq m h1 h2
    rw [hm] at this
    exact absurd this (by simp)
  | some i =>
    refine ⟨i, rfl, ?_⟩
    obtain ⟨-, -, -, hmin⟩ := (firstOwnedFrom_eq_some_iff L p fuel k i).mp heq
    by_contra hlt
    have := hmin m h1 (by omega)
    rw [hm] at this
    exact absurd this (by simp)

/-- C2: `find_subtitle_index` follows the spec's resolution rule: it returns 0
for an empty list or a position at or before the first entry's start; the last
index for a position at or after the last entry's end; otherwise the first
index that either contains the position or precedes a strict gap holding it,
with 0 as the defensive fallback — and it is a pure function of the entry list
and the position. -/
theorem C2_find_index_rule (entries : List SubtitleEntry) (p : ℚ) :
    findSubtitleIndex entries p = findIndexAtClaim entries p := by
  cases entries with
  | nil => rfl
  | cons e0 rest =>
    simp only [findSubtitleIndex, findIndexAtClaim]
    rw [findLoop_eq]

/-- Helper predicate: the entry at index `j` starts at or before `p`. -/
def startLEB (L : List SubtitleEntry) (p : ℚ) (j : ℕ) : Bool :=
  match L[j]? with
  | some x => decide (x.start_time ≤ p)
  | none => false

/-- Propositional form of `startLEB`, used with `Nat.findGreatest`. -/
def startLEP (L : List SubtitleEntry) (p : ℚ) : ℕ → Prop := fun j => startLEB L p j = true

instance (L : List SubtitleEntry) (p : ℚ) : DecidablePred (startLEP L p) := fun _ => by
  unfold startLEP
  infer_instance

theorem exists_owned_le (L : List SubtitleEntry) (p : ℚ) (b : ℕ) (hb : b < L.length)
    (e0 : SubtitleEntry) (h00 : L[0]? = some e0) (h0 : e0.start_time < p)
    (hstop : ∀ x, L[b]? = some x → p ≤ x.end_time ∨ p < x.start_time) :
    ∃ j, j ≤ b ∧ ownsB L p j = true := by
  have hP0 : startLEP L p 0 := by
    unfold startLEP startLEB
    rw [h00]
    simpa using le_of_lt h0
  have hPj : startLEP L p (Nat.findGreatest (startLEP L p) b) :=
    Nat.findGreatest_spec (Nat.zero_le b) hP0
  set jg := Nat.findGreatest (startLEP L p) b with hjg
  rw [startLEP] at hPj
  have hjle : jg ≤ b := Nat.findGreatest_le b
  have hjlen : jg < L.length := by omega
  obtain ⟨xg, hxg⟩ : ∃ x, L[jg]? = some x := ⟨L[jg], List.getElem?_eq_getElem hjlen⟩
  have hsx : xg.start_time ≤ p := by
    unfold startLEB at hPj
    rw [hxg] at hPj
    simpa using hPj
  by_cases hpe : p ≤ xg.end_time
  · refine ⟨jg, hjle, ?_⟩
    unfold ownsB
    rw [hxg]
    simp [hsx, hpe]
  · have hex : xg.end_time < p := lt_of_not_le hpe
    have hjlt : jg < b := by
      rcases Nat.eq_or_lt_of_le hjle with heq | hlt
      · exfalso
        rw [heq] at hxg
        rcases hstop xg hxg with hc | hc
        · exact hpe hc
        · exact absurd hsx (not_le.mpr hc)
      · exact hlt
    have hylen : jg + 1 < L.length := by omega
    obtain ⟨y, hy⟩ : ∃ y, L[jg + 1]? = some y := ⟨L[jg + 1], List.getElem?_eq_getElem hylen⟩
    have hnP : ¬ startLEP L p (jg + 1) := by
      intro hc
      have hle := Nat.le_findGreatest (show jg + 1 ≤ b by omega) hc
      rw [← hjg] at hle
      omega
    have hys : p < y.start_time := by
      unfold startLEP startLEB at hnP
      rw [hy] at hnP
      simpa using hnP
    refine ⟨jg, hjle, ?_⟩
    unfold ownsB
    rw [hxg, hy]
    simp [hex, hys]

/-- C8: `find_subtitle_index` is monotone non-decreasing in the position, for
a fixed entry list ordered by `start_time` (the proof in fact never needs the
ordering hypothesis: the first-match scan together with the two boundary
guards is monotone for every entry list). -/
theorem C8_find_index_monotone (entries : List SubtitleEntry)
    (_hsorted : List.Sorted (fun a b => a.start_time ≤ b.start_time) entries)
    (p1 p2 : ℚ) (hp : p1 ≤ p2) :
    findSubtitleIndex entries p1 ≤ findSubtitleIndex entries p2 := by
  cases entries with
  | nil => simp [findSubtitleIndex]
  | cons e0 rest =>
    set L := e0 :: rest with hL
    have h00 : L[0]? = some e0 := by simp [hL]
    have hlastget : L[L.length - 1]? = some (L.getLast (List.cons_ne_nil e0 rest)) := by
      rw [List.getLast_eq_getElem]
      exact List.getElem?_eq_getElem _
    simp only [findSubtitleIndex]
    by_cases g1 : p1 ≤ e0.start_time
    · rw [if_pos g1]
      exact Nat.zero_le _
    · rw [if_neg g1]
      have g1' : ¬ p2 ≤ e0.start_time := fun h => g1 (le_trans hp h)
      rw [if_neg g1']
      have h0 : e0.start_time < p1 := lt_of_not_le g1
      have h0' : e0.start_time < p2 := lt_of_lt_of_le h0 hp
      by_cases g2 : (L.getLast (List.cons_ne_nil e0 rest)).end_time ≤ p1
      · rw [if_pos g2, if_pos (le_trans g2 hp)]
      · rw [if_neg g2]
        by_cases g3 : (L.getLast (List.cons_ne_nil e0 rest)).end_time ≤ p2
        · rw [if_pos g3]
          -- the loop's result is always at most the last index
          cases heq : findLoop p1 L with
          | none => simp
          | some i =>
            rw [findLoop_eq] at heq
            obtain ⟨-, hi2, -, -⟩ := (firstOwnedFrom_eq_some_iff L p1 L.length 0 i).mp heq
            have hii : i ≤ rest.length := by
              have : L.length = rest.length + 1 := by simp [hL]
              omega
            simpa using hii
        · rw [if_neg g3]
          -- both positions fall strictly inside the subtitle span
          have hmid2 : ∃ j, j ≤ L.length - 1 ∧ ownsB L p2 j = true := by
            refine exists_owned_le L p2 (L.length - 1) (by simp [hL]) e0 h00 h0' ?_
            intro x hx
            rw [hlastget] at hx
            have hxe := Option.some.inj hx
            left
            rw [← hxe]
            exact le_of_lt (lt_of_not_le g3)
          obtain ⟨j2, hj2b, hj2o⟩ := hmid2
          have hlenpos : 0 < L.length := by simp [hL]
          obtain ⟨i2, hi2eq, hi2le⟩ :=
            firstOwned_exists_le L p2 L.length 0 j2 hj2o (Nat.zero_le _) (by omega)
          obtain ⟨-, hi2lt, hi2own, hi2min⟩ :=
            (firstOwnedFrom_eq_some_iff L p2 L.length 0 i2).mp hi2eq
          -- find an index owned by p1 at or before i2
          obtain ⟨x2, hx2⟩ : ∃ x, L[i2]? = some x :=
            ⟨L.get ⟨i2, by omega⟩, List.getElem?_eq_getElem (by omega)⟩
          have hown1 : ∃ j, j ≤ i2 ∧ ownsB L p1 j = true := by
            by_cases hcase : x2.start_time ≤ p1
            · refine ⟨i2, le_refl _, ?_⟩
              unfold ownsB at hi2own ⊢
              rw [hx2] at hi2own ⊢
              cases hy : L[i2 + 1]? with
              | none =>
                rw [hy] at hi2own
                simp only [Bool.or_false, decide_eq_true_eq] at hi2own ⊢
                exact ⟨hcase, le_trans hp hi2own.2⟩
              | some y =>
                rw [hy] at hi2own
                simp only [Bool.or_eq_true, decide_eq_true_eq] at hi2own ⊢
                rcases hi2own with ⟨hs2, he2⟩ | ⟨hgt, hlt2⟩
                · exact Or.inl ⟨hcase, le_trans hp he2⟩
                · by_cases hp1e : p1 ≤ x2.end_time
                  · exact Or.inl ⟨hcase, hp1e⟩
                  · exact Or.inr ⟨lt_of_not_le hp1e, lt_of_le_of_lt hp hlt2⟩
            · have hltx : p1 < x2.start_time := lt_of_not_le hcase
              refine exists_owned_le L p1 i2 (by omega) e0 h00 h0 ?_
              intro x hx
              rw [hx2] at hx
              have hxe := Option.some.inj hx
              right
              rw [← hxe]
              exact hltx
          obtain ⟨j1, hj1le, hj1o⟩ := hown1
          obtain ⟨i1, hi1eq, hi1le⟩ :=
            firstOwned_exists_le L p1 L.length 0 j1 hj1o (Nat.zero_le _) (by omega)
          rw [findLoop_eq, findLoop_eq, hi1eq, hi2eq]
          simpa using le_trans hi1le hj1le

/-- C8 witness: a concrete sorted two-entry list and positions 1 ≤ 6. -/
theorem C8_witness :
    List.Sorted (fun a b => a.start_time ≤ b.start_time)
      [SubtitleEntry.mk 1 0 5 "a", SubtitleEntry.mk 2 5 9 "b"] ∧
    (1 : ℚ) ≤ 6 ∧
    findSubtitleIndex [SubtitleEntry.mk 1 0 5 "a", SubtitleEntry.mk 2 5 9 "b"] 1 ≤
      findSubtitleIndex [SubtitleEntry.mk 1 0 5 "a", SubtitleEntry.mk 2 5 9 "b"] 6 :=
  ⟨by norm_num [List.sorted_cons], by norm_num,
    C8_find_index_monotone _ (by norm_num [List.sorted_cons]) 1 6 (by norm_num)⟩

/-! ## The segment boundary model

The widget class actually instantiated by the player
(`anki_slicer/segment_adjuster.py`) is not among the sources; only its callers
(src/anki_slicer/player.py, src/anki_slicer/mobile_screens.py) and an earlier
sibling implementation (src/SegmentAdjusterWidget.py) are.  Its
`set_bounds_and_selection` is therefore modelled from the spec below; the
sibling's `set_segment` is translated from the source. -/

/-- Which side of the selection a nudge applies to. -/
inductive Side where
  | start : Side
  | end' : Side
deriving DecidableEq, Repr

/-- The adjustable segment boundary state: context window `raw_*` and
adjustable selection `adj_*`, all in seconds. -/
structure Boundary where
  raw_start : ℚ
  raw_end : ℚ
  adj_start : ℚ
  adj_end : ℚ
deriving DecidableEq, Repr

/-- Modelled from the spec: `set_bounds_and_selection` of the segment-adjuster
widget (`anki_slicer/segment_adjuster.py`, missing from the sources — only its
callers are present).  Per spec §4.2 it clamps the selection into
`[raw_start, raw_end]`, swaps if inverted, and enforces the minimum length by
growing `sel_end` first, then shrinking `sel_start` only if the window is too
short to hold the minimum at the edge; this mirrors `set_segment` of
src/SegmentAdjusterWidget.py with `[0, duration]` generalized to
`[raw_start, raw_end]`. -/
def setBoundsAndSelection (minLen rawS rawE selS selE : ℚ) : Boundary :=
  let s0 := max rawS (min selS rawE)
  let e0 := max rawS (min selE rawE)
  let s1 := if e0 < s0 then e0 else s0
  let e1 := if e0 < s0 then s0 else e0
  if e1 - s1 < minLen then
    let e2 := min (s1 + minLen) rawE
    if e2 - s1 < minLen then
      ⟨rawS, rawE, max rawS (e2 - minLen), e2⟩
    else
      ⟨rawS, rawE, s1, e2⟩
  else
    ⟨rawS, rawE, s1, e1⟩

/-- `set_segment(start_sec, end_sec)` of src/SegmentAdjusterWidget.py
(lines 106-123): clamp both endpoints into `[0, duration]`, swap if inverted,
enforce the minimum length by growing the end first and shrinking the start
only when the audio is too short.  Returns the `(adjusted_start, adjusted_end)`
pair. -/
def set_segment (durationSec minLen startSec endSec : ℚ) : ℚ × ℚ :=
  let s0 := max 0 (min startSec durationSec)
  let e0 := max 0 (min endSec durationSec)
  let s1 := if e0 < s0 then e0 else s0
  let e1 := if e0 < s0 then s0 else e0
  if e1 - s1 < minLen then
    let e2 := min (s1 + minLen) durationSec
    if e2 - s1 < minLen then
      (max 0 (e2 - minLen), e2)
    else
      (s1, e2)
  else
    (s1, e1)

/-- The sibling widget's `set_segment` is the modelled `set_bounds_and_selection`
specialized to the window `[0, duration]`. -/
theorem set_segment_eq_setBounds (durationSec minLen startSec endSec : ℚ) :
    set_segment durationSec minLen startSec endSec =
      ((setBoundsAndSelection minLen 0 durationSec startSec endSec).adj_start,
        (setBoundsAndSelection minLen 0 durationSec startSec endSec).adj_end) := by
  unfold set_segment setBoundsAndSelection
  dsimp only
  split_ifs <;> rfl

/-- `nudge_segment(which, delta)` of src/anki_slicer/player.py (lines 997-1026):
the side-specific update followed by the unconditional re-clamp of both
endpoints (minimum gap 0.05 in the re-clamp, 0.1 in the side-specific step). -/
def nudgeSegment (b : Boundary) (which : Side) (delta : ℚ) : Boundary :=
  let b1 :=
    match which with
    | Side.start =>
      let ns :=
        if delta < 0 then min (b.adj_end - 1/10) (b.adj_start + |delta|)
        else max b.raw_start (b.adj_start - |delta|)
      { b with adj_start := ns }
    | Side.end' =>
      let ne :=
        if delta < 0 then max (b.adj_start + 1/10) (b.adj_end - |delta|)
        else min b.raw_end (b.adj_end + |delta|)
      { b with adj_end := ne }
  let a2 := max b1.raw_start (min b1.adj_start (b1.adj_end - 1/20))
  let e2 := min b1.raw_end (max b1.adj_end (a2 + 1/20))
  { b1 with adj_start := a2, adj_end := e2 }

/-- `_adjust_selection(side, delta)` of src/anki_slicer/mobile_screens.py
(lines 718-732): clamp the moved endpoint against the fixed one with a
minimum gap of 0.05, then re-apply `set_bounds_and_selection` (whose own
minimum length `minLen` belongs to the modelled widget). -/
def adjustSelection (b : Boundary) (minLen : ℚ) (side : Side) (delta : ℚ) : Boundary :=
  match side with
  | Side.start =>
    let s' := max b.raw_start (min (b.adj_start + delta) (b.adj_end - 1/20))
    setBoundsAndSelection minLen b.raw_start b.raw_end s' b.adj_end
  | Side.end' =>
    let e' := min b.raw_end (max (b.adj_start + 1/20) (b.adj_end + delta))
    setBoundsAndSelection minLen b.raw_start b.raw_end b.adj_start e'

/-- The boundary invariant of spec §3/§8 with minimum length `minv`. -/
def BoundaryInv (minv : ℚ) (b : Boundary) : Prop :=
  b.raw_start ≤ b.adj_start ∧ b.adj_start < b.adj_end ∧ b.adj_end ≤ b.raw_end ∧
    minv ≤ b.adj_end - b.adj_start

theorem setBounds_inv (minLen rawS rawE selS selE : ℚ) (h0 : 0 < minLen)
    (hw : minLen ≤ rawE - rawS) :
    BoundaryInv minLen (setBoundsAndSelection minLen rawS rawE selS selE) := by
  have hrr : rawS ≤ rawE := by linarith
  have hs0l : rawS ≤ max rawS (min selS rawE) := le_max_left _ _
  have hs0r : max rawS (min selS rawE) ≤ rawE := max_le hrr (min_le_right _ _)
  have he0l : rawS ≤ max rawS (min selE rawE) := le_max_left _ _
  have he0r : max rawS (min selE rawE) ≤ rawE := max_le hrr (min_le_right _ _)
  unfold setBoundsAndSelection BoundaryInv
  set s0 := max rawS (min selS rawE) with hs0
  set e0 := max rawS (min selE rawE) with he0
  dsimp only
  split_ifs with h1 h2 h3 h4 h5 <;> dsimp only
  · -- swapped, too short, window-capped: the selection locks to the last
    -- minLen of the window
    have he2 : min (e0 + minLen) rawE = rawE := by
      rcases le_or_lt (e0 + minLen) rawE with hc | hc
      · exfalso; rw [min_eq_left hc] at h3; linarith
      · exact min_eq_right (le_of_lt hc)
    rw [he2]
    have hmax : max rawS (rawE - minLen) = rawE - minLen := max_eq_right (by linarith)
    rw [hmax]
    exact ⟨by linarith, by linarith, le_refl _, by linarith⟩
  · -- swapped, too short, grown within the window
    have hle : min (e0 + minLen) rawE ≤ rawE := min_le_right _ _
    have hge : minLen ≤ min (e0 + minLen) rawE - e0 := not_lt.mp h3
    exact ⟨he0l, by linarith, hle, hge⟩
  · -- swapped, long enough
    exact ⟨he0l, h1, hs0r, not_lt.mp h2⟩
  · -- unswapped, too short, window-capped
    have he2 : min (s0 + minLen) rawE = rawE := by
      rcases le_or_lt (s0 + minLen) rawE with hc | hc
      · exfalso; rw [min_eq_left hc] at h5; linarith
      · exact min_eq_right (le_of_lt hc)
    rw [he2]
    have hmax : max rawS (rawE - minLen) = rawE - minLen := max_eq_right (by linarith)
    rw [hmax]
    exact ⟨by linarith, by linarith, le_refl _, by linarith⟩
  · -- unswapped, too short, grown within the window
    have hle : min (s0 + minLen) rawE ≤ rawE := min_le_right _ _
    have hge : minLen ≤ min (s0 + minLen) rawE - s0 := not_lt.mp h5
    exact ⟨hs0l, by linarith, hle, hge⟩
  · -- unswapped, long enough
    have hge : minLen ≤ e0 - s0 := not_lt.mp h4
    exact ⟨hs0l, by linarith, he0r, hge⟩

theorem final_clamp_inv (rawS rawE a c : ℚ) (hw : rawS + 1/20 ≤ rawE)
    (hac : min a (c - 1/20) ≤ rawE - 1/20) :
    rawS ≤ max rawS (min a (c - 1/20)) ∧
    max rawS (min a (c - 1/20)) + 1/20 ≤
      min rawE (max c (max rawS (min a (c - 1/20)) + 1/20)) ∧
    min rawE (max c (max rawS (min a (c - 1/20)) + 1/20)) ≤ rawE := by
  refine ⟨le_max_left _ _, ?_, min_le_left _ _⟩
  have h1 : max rawS (min a (c - 1/20)) ≤ rawE - 1/20 := max_le (by linarith) hac
  exact le_min (by linarith) (le_max_right _ _)

theorem nudge_inv (b : Boundary) (which : Side) (delta : ℚ)
    (h : BoundaryInv (1/20) b) : BoundaryInv (1/20) (nudgeSegment b which delta) := by
  obtain ⟨hA, hB, hC, hD⟩ := h
  have hw : b.raw_start + 1/20 ≤ b.raw_end := by linarith
  cases which with
  | start =>
    unfold nudgeSegment
    dsimp only
    have hac :
        min (if delta < 0 then min (b.adj_end - 1/10) (b.adj_start + |delta|)
              else max b.raw_start (b.adj_start - |delta|))
          (b.adj_end - 1/20) ≤ b.raw_end - 1/20 :=
      le_trans (min_le_right _ _) (by linarith)
    obtain ⟨k1, k2, k3⟩ := final_clamp_inv b.raw_start b.raw_end
      (if delta < 0 then min (b.adj_end - 1/10) (b.adj_start + |delta|)
        else max b.raw_start (b.adj_start - |delta|)) b.adj_end hw hac
    exact ⟨k1, by linarith, k3, by linarith⟩
  | end' =>
    unfold nudgeSegment
    dsimp only
    have hac :
        min b.adj_start
          ((if delta < 0 then max (b.adj_start + 1/10) (b.adj_end - |delta|)
              else min b.raw_end (b.adj_end + |delta|)) - 1/20) ≤ b.raw_end - 1/20 :=
      le_trans (min_le_left _ _) (by linarith)
    obtain ⟨k1, k2, k3⟩ := final_clamp_inv b.raw_start b.raw_end b.adj_start
      (if delta < 0 then max (b.adj_start + 1/10) (b.adj_end - |delta|)
        else min b.raw_end (b.adj_end + |delta|)) hw hac
    exact ⟨k1, by linarith, k3, by linarith⟩

theorem inv_weaken (m : ℚ) (b : Boundary) (h : BoundaryInv m b) (hm : 1/20 ≤ m) :
    BoundaryInv (1/20) b :=
  ⟨h.1, h.2.1, h.2.2.1, by have := h.2.2.2; linarith⟩

/-- The segment-boundary states reachable through the public operations, each
call made with a context window at least as long as the surface's minimum
length (which is at least the 0.05 enforced by the player's re-clamp). -/
inductive BoundaryReachable : Boundary → Prop where
  | set_bounds : ∀ (minLen rawS rawE selS selE : ℚ), 1/20 ≤ minLen →
      minLen ≤ rawE - rawS →
      BoundaryReachable (setBoundsAndSelection minLen rawS rawE selS selE)
  | nudge : ∀ (b : Boundary) (which : Side) (delta : ℚ), BoundaryReachable b →
      BoundaryReachable (nudgeSegment b which delta)
  | adjust : ∀ (b : Boundary) (minLen : ℚ) (side : Side) (delta : ℚ), 1/20 ≤ minLen →
      minLen ≤ b.raw_end - b.raw_start → BoundaryReachable b →
      BoundaryReachable (adjustSelection b minLen side delta)

/-- C1 counterexample: the claim quantifies over `set_bounds_and_selection`
with ANY arguments, but the call `set_bounds_and_selection(0.0, 0.0, 0.0, 0.0)`
made by `show_current_segment_in_adjuster` (src/anki_slicer/player.py:1089)
collapses the selection to `adj_start = adj_end = 0`, violating
`adj_start < adj_end` and the minimum length; the source widget's
`set_segment(0, 0)` on a zero-length track does the same. -/
theorem C1_counterexample :
    (setBoundsAndSelection (1/20) 0 0 0 0).adj_start = 0 ∧
    (setBoundsAndSelection (1/20) 0 0 0 0).adj_end = 0 ∧
    ¬ ((setBoundsAndSelection (1/20) 0 0 0 0).adj_start <
        (setBoundsAndSelection (1/20) 0 0 0 0).adj_end) ∧
    ¬ BoundaryInv (1/20) (setBoundsAndSelection (1/20) 0 0 0 0) ∧
    set_segment 0 (1/5) 0 0 = (0, 0) := by
  norm_num [setBoundsAndSelection, set_segment, BoundaryInv]

/-- C1 (amended): every boundary state reachable through the public operations
satisfies `raw_start ≤ adj_start < adj_end ≤ raw_end` and
`adj_end - adj_start ≥ 0.05`, provided each `set_bounds_and_selection` call is
made with a window at least one minimum length long
(`raw_end - raw_start ≥ min_length`); with a degenerate window the clamping
collapses the selection and the invariant fails (see the counterexample). -/
theorem C1_boundary_invariant (b : Boundary) (h : BoundaryReachable b) :
    BoundaryInv (1/20) b := by
  induction h with
  | set_bounds minLen rawS rawE selS selE hmin hwin =>
    exact inv_weaken minLen _ (setBounds_inv minLen rawS rawE selS selE (by linarith) hwin) hmin
  | nudge b which delta _ ih => exact nudge_inv b which delta ih
  | adjust b minLen side delta hmin hwin _ _ =>
    unfold adjustSelection
    cases side <;> dsimp only <;>
      exact inv_weaken minLen _ (setBounds_inv minLen _ _ _ _ (by linarith) hwin) hmin

/-- C1 witness: a concrete reachable state (window `[0,10]`, selection
`[2,3]`) satisfying the invariant. -/
theorem C1_witness :
    BoundaryReachable (setBoundsAndSelection (1/20) 0 10 2 3) ∧
    BoundaryInv (1/20) (setBoundsAndSelection (1/20) 0 10 2 3) :=
  ⟨BoundaryReachable.set_bounds (1/20) 0 10 2 3 (le_refl _) (by norm_num),
    C1_boundary_invariant _
      (BoundaryReachable.set_bounds (1/20) 0 10 2 3 (le_refl _) (by norm_num))⟩

/-- C3 counterexample: from `raw=(0,10)`, `adj=(5,9)`, the player's
`nudge_segment("start", -0.05)` moves the start LATER to 5.05, whereas the
claim's formula `clamp(adj_start + delta, raw_start, adj_end - min_length)`
(with the re-clamp's own constant 0.05 as min length) yields 4.95: the delta
sign convention on the start side is inverted in the code. -/
theorem C3_counterexample :
    (nudgeSegment ⟨0, 10, 5, 9⟩ Side.start (-(1/20))).adj_start = 101/20 ∧
    min ((9 : ℚ) - 1/20) (max 0 (5 + (-(1/20)))) = 99/20 ∧
    (101 : ℚ)/20 ≠ 99/20 ∧
    ¬ ((nudgeSegment ⟨0, 10, 5, 9⟩ Side.start (-(1/20))).adj_start <
        (⟨0, 10, 5, 9⟩ : Boundary).adj_start) := by
  have habs : |(1 : ℚ)/20| = 1/20 := abs_of_nonneg (by norm_num)
  refine ⟨?_, by norm_num, by norm_num, ?_⟩ <;>
    norm_num [nudgeSegment, habs, min_def, max_def]

/-- C3 (amended): under the boundary invariant, `nudge_segment` computes:
on the start side, `adj_start := clamp(adj_start - delta, raw_start,
adj_end - m)` with `m = 0.1` when shrinking (`delta < 0`) and `m = 0.05`
when growing, the lower bound winning, and `adj_end` unchanged — so a
POSITIVE delta moves the start earlier (expand); on the end side,
`adj_end := clamp(adj_end + delta, adj_start + m, raw_end)` with the same
`m` rule and `adj_start` unchanged; Scenario B holds: from `adj=(5,9)`,
`nudge("end", -0.05)` yields `adj_end = 8.95`. -/
theorem C3_nudge_amended (b : Boundary) (delta : ℚ)
    (hA : b.raw_start ≤ b.adj_start) (hD : b.adj_start + 1/20 ≤ b.adj_end)
    (hC : b.adj_end ≤ b.raw_end) :
    ((nudgeSegment b Side.start delta).adj_start =
        max b.raw_start (min (b.adj_start - delta)
          (b.adj_end - (if delta < 0 then 1/10 else 1/20))) ∧
      (nudgeSegment b Side.start delta).adj_end = b.adj_end) ∧
    ((nudgeSegment b Side.end' delta).adj_end =
        min b.raw_end (max (b.adj_start + (if delta < 0 then 1/10 else 1/20))
          (b.adj_end + delta)) ∧
      (nudgeSegment b Side.end' delta).adj_start = b.adj_start) := by
  unfold nudgeSegment
  dsimp only
  refine ⟨⟨?_, ?_⟩, ?_, ?_⟩
  · -- start side: the new adj_start
    by_cases hd : delta < 0
    · simp only [if_pos hd, abs_of_neg hd]
      rw [show b.adj_start + -delta = b.adj_start - delta from by ring]
      congr 1
      rcases le_total (b.adj_end - 1/10) (b.adj_start - delta) with h | h
      · rw [min_eq_left h, min_eq_left (by linarith), min_eq_right h]
      · rw [min_eq_right h, min_eq_left (by linarith), min_eq_left h]
    · simp only [if_neg hd, abs_of_nonneg (not_lt.mp hd)]
      rcases le_total (b.adj_start - delta) b.raw_start with h | h
      · rw [max_eq_left h, min_eq_left (by linarith), max_self,
          min_eq_left (by linarith), max_eq_left h]
      · rw [max_eq_right h]
  · -- start side: adj_end is untouched by the re-clamp
    by_cases hd : delta < 0
    · simp only [if_pos hd, abs_of_neg hd]
      rw [show b.adj_start + -delta = b.adj_start - delta from by ring]
      have hAle : max b.raw_start
          (min (min (b.adj_end - 1/10) (b.adj_start - delta)) (b.adj_end - 1/20)) ≤
            b.adj_end - 1/20 := max_le (by linarith) (min_le_right _ _)
      have h2 : max b.raw_start
          (min (min (b.adj_end - 1/10) (b.adj_start - delta)) (b.adj_end - 1/20)) + 1/20 ≤
            b.adj_end := by linarith
      rw [max_eq_left h2, min_eq_right hC]
    · simp only [if_neg hd, abs_of_nonneg (not_lt.mp hd)]
      have hAle : max b.raw_start
          (min (max b.raw_start (b.adj_start - delta)) (b.adj_end - 1/20)) ≤
            b.adj_end - 1/20 := max_le (by linarith) (min_le_right _ _)
      have h2 : max b.raw_start
          (min (max b.raw_start (b.adj_start - delta)) (b.adj_end - 1/20)) + 1/20 ≤
            b.adj_end := by linarith
      rw [max_eq_left h2, min_eq_right hC]
  · -- end side: the new adj_end
    by_cases hd : delta < 0
    · simp only [if_pos hd, abs_of_neg hd]
      rw [show b.adj_end - -delta = b.adj_end + delta from by ring]
      have hne1 : b.adj_start + 1/10 ≤ max (b.adj_start + 1/10) (b.adj_end + delta) :=
        le_max_left _ _
      have hmin : min b.adj_start
          (max (b.adj_start + 1/10) (b.adj_end + delta) - 1/20) = b.adj_start :=
        min_eq_left (by linarith)
      rw [hmin, max_eq_right hA,
        max_eq_left (show b.adj_start + 1/20 ≤
          max (b.adj_start + 1/10) (b.adj_end + delta) from by linarith)]
    · simp only [if_neg hd, abs_of_nonneg (not_lt.mp hd)]
      have hd' : 0 ≤ delta := not_lt.mp hd
      have hge : b.adj_start + 1/20 ≤ min b.raw_end (b.adj_end + delta) :=
        le_min (by linarith) (by linarith)
      have hmin : min b.adj_start (min b.raw_end (b.adj_end + delta) - 1/20) =
          b.adj_start := min_eq_left (by linarith)
      rw [hmin, max_eq_right hA, max_eq_left hge,
        max_eq_right (show b.adj_start + 1/20 ≤ b.adj_end + delta from by linarith),
        ← min_assoc, min_self]
  · -- end side: adj_start is untouched by the re-clamp
    by_cases hd : delta < 0
    · simp only [if_pos hd, abs_of_neg hd]
      rw [show b.adj_end - -delta = b.adj_end + delta from by ring]
      have hmin : min b.adj_start
          (max (b.adj_start + 1/10) (b.adj_end + delta) - 1/20) = b.adj_start :=
        min_eq_left (by linarith [le_max_left (b.adj_start + 1/10) (b.adj_end + delta)])
      rw [hmin, max_eq_right hA]
    · simp only [if_neg hd, abs_of_nonneg (not_lt.mp hd)]
      have hd' : 0 ≤ delta := not_lt.mp hd
      have hge : b.adj_start + 1/20 ≤ min b.raw_end (b.adj_end + delta) :=
        le_min (by linarith) (by linarith)
      have hmin : min b.adj_start (min b.raw_end (b.adj_end + delta) - 1/20) =
          b.adj_start := min_eq_left (by linarith)
      rw [hmin, max_eq_right hA]

/-- C3 witness: Scenario B — `raw=(4,10)`, `adj=(5,9)`, `nudge("end", -0.05)`
yields `adj_end = 8.95` (and the start stays at 5). -/
theorem C3_witness :
    ((4 : ℚ) ≤ 5 ∧ (5 : ℚ) + 1/20 ≤ 9 ∧ (9 : ℚ) ≤ 10) ∧
    (nudgeSegment ⟨4, 10, 5, 9⟩ Side.end' (-(1/20))).adj_end = 179/20 ∧
    (nudgeSegment ⟨4, 10, 5, 9⟩ Side.end' (-(1/20))).adj_start = 5 := by
  have h := C3_nudge_amended ⟨4, 10, 5, 9⟩ (-(1/20)) (by norm_num) (by norm_num) (by norm_num)
  refine ⟨⟨by norm_num, by norm_num, by norm_num⟩, ?_, ?_⟩
  · rw [h.2.1]; norm_num
  · rw [h.2.2]

/-! ## Auto-pause arming (src/anki_slicer/player.py) -/

/-- Python's `int()` truncation toward zero on a rational. -/
def pyInt (x : ℚ) : ℤ := if x < 0 then -⌊-x⌋ else ⌊x⌋

/-- `toggle_play`'s auto-pause arming (player.py:1246-1251):
`remaining_ms = max(0, int(end_time * 1000 - self.player.position()))`,
from the live player position. -/
def armTogglePlay (endTime : ℚ) (posMs : ℤ) : ℤ :=
  max 0 (pyInt (endTime * 1000 - posMs))

/-- `toggle_mode`'s mid-playback arming (player.py:1274-1283), same formula. -/
def armToggleMode (endTime : ℚ) (posMs : ℤ) : ℤ :=
  max 0 (pyInt (endTime * 1000 - posMs))

/-- `jump_to_current_subtitle_and_play`'s arming (player.py:1327-1330). -/
def armNavigationJump (entryEnd : ℚ) (posMs : ℤ) : ℤ :=
  max 0 (pyInt (entryEnd * 1000 - posMs))

/-- `on_slider_released`'s arming (player.py:1353-1360). -/
def armSliderRelease (entryEnd : ℚ) (posMs : ℤ) : ℤ :=
  max 0 (pyInt (entryEnd * 1000 - posMs))

/-- `play_adjusted_segment` (player.py:1028-1037): seeks to `int(start*1000)`
and arms the timer with the segment duration
`max(0, int((end - start) * 1000))` — not with the deadline-minus-position
formula.  Returns the pair (new player position, timer duration). -/
def armPreview (startSec endSec : ℚ) : ℤ × ℤ :=
  (pyInt (startSec * 1000), max 0 (pyInt ((endSec - startSec) * 1000)))

theorem pyInt_intCast (n : ℤ) : pyInt (n : ℚ) = n := by
  unfold pyInt
  split_ifs with h
  · rw [show -(n : ℚ) = ((-n : ℤ) : ℚ) from by push_cast; ring, Int.floor_intCast]
    omega
  · rw [Int.floor_intCast]

theorem max0_pyInt_sub (q : ℚ) (n : ℤ) (hq : 0 ≤ q) :
    max 0 (pyInt (q - n)) = max 0 (pyInt q - n) := by
  unfold pyInt
  rcases lt_or_le (q - (n : ℚ)) 0 with h | h
  · rw [if_pos h, if_neg (not_lt.mpr hq)]
    have h1 : q < (n : ℚ) := by linarith
    have h2 : ⌊q⌋ < n := Int.floor_lt.mpr (by exact_mod_cast h1)
    have h3 : (0 : ℤ) ≤ ⌊-(q - n)⌋ := Int.floor_nonneg.mpr (by linarith)
    rw [max_eq_left (by omega), max_eq_left (by omega)]
  · rw [if_neg (not_lt.mpr h), if_neg (not_lt.mpr hq), Int.floor_sub_int]

/-- C4 counterexample: with fractional-millisecond boundaries
`start = 0.0009 s`, `end = 0.0107 s`, the preview arming
(`play_adjusted_segment`) sets the timer to `int((end-start)*1000) = 9` ms,
while the claim's live-position formula
`max(0, deadline_ms - current_position_ms)` gives `10` ms: this arming site
uses a duration, not the live position. -/
theorem C4_counterexample :
    (armPreview (9/10000) (107/10000)).2 = 9 ∧
    max 0 (pyInt ((107 : ℚ)/10000 * 1000) - (armPreview (9/10000) (107/10000)).1) = 10 ∧
    (9 : ℤ) ≠ 10 := by
  refine ⟨?_, ?_, by norm_num⟩ <;> norm_num [armPreview, pyInt]

/-- C4 (amended): the armings on play-toggle, mode-toggle, navigation jump and
slider release all equal `max(0, deadline_ms - current_position_ms)` computed
from the live position (for a non-negative deadline and position); the
preview-start arming instead uses the segment duration after seeking to the
start, which agrees with the live-position formula exactly when both adjusted
boundary times are whole milliseconds (as all SRT-derived and 0.05-stepped
boundaries are). -/
theorem C4_arming_amended (endT s e : ℚ) (pos a b : ℤ)
    (hend : 0 ≤ endT) (hs : s * 1000 = (a : ℚ)) (he : e * 1000 = (b : ℚ)) :
    armTogglePlay endT pos = max 0 (pyInt (endT * 1000) - pos) ∧
    armToggleMode endT pos = max 0 (pyInt (endT * 1000) - pos) ∧
    armNavigationJump endT pos = max 0 (pyInt (endT * 1000) - pos) ∧
    armSliderRelease endT pos = max 0 (pyInt (endT * 1000) - pos) ∧
    (armPreview s e).2 = max 0 (pyInt (e * 1000) - (armPreview s e).1) := by
  have hq : (0 : ℚ) ≤ endT * 1000 := by positivity
  have hmain := max0_pyInt_sub (endT * 1000) pos hq
  refine ⟨hmain, hmain, hmain, hmain, ?_⟩
  unfold armPreview
  dsimp only
  have hdiff : (e - s) * 1000 = ((b - a : ℤ) : ℚ) := by push_cast; linarith
  rw [hdiff, pyInt_intCast, hs, he, pyInt_intCast, pyInt_intCast]

/-- C4 witness: Scenario C — arming at `position_ms = 7000` against deadline
`end_time = 9` yields `remaining_ms = 2000`, and the preview arming agrees
with the live formula on whole-millisecond bounds `adj = (5, 9)`. -/
theorem C4_witness :
    armTogglePlay 9 7000 = 2000 ∧
    (armPreview 5 9).2 = max 0 (pyInt ((9 : ℚ) * 1000) - (armPreview 5 9).1) := by
  have h := C4_arming_amended 9 5 9 7000 5000 9000 (by norm_num) (by norm_num) (by norm_num)
  refine ⟨?_, h.2.2.2.2⟩
  rw [h.1]
  norm_num [pyInt]

/-! ## Video sync throttling: `_sync_video_to_audio` (player.py:1439-1464) -/

/-- The video-sync bookkeeping read by `_sync_video_to_audio`. -/
structure VideoSyncState where
  lastVideoTime : Option ℚ
  videoPlaying : Bool
  lastReportTs : Option ℚ
  lastCmdAt : Option ℚ
deriving DecidableEq, Repr

/-- The predicted video time: the last reported video time, extrapolated
forward by the elapsed wall-clock time when the video was last known playing
(player.py:1452-1454). -/
def predictedVideoTime (st : VideoSyncState) (now t : ℚ) : ℚ :=
  t + (if st.videoPlaying then
        match st.lastReportTs with
        | some r => max 0 (now - r)
        | none => 0
      else 0)

/-- Whether `_sync_video_to_audio` SKIPS issuing the seek command
(player.py:1451-1459), for a ready surface with a video attached: never when
forced; when not forced and a last video time is known, skip if
`|target - predicted| < 0.35`, OTHERWISE skip if a previous sync command was
issued less than 0.6 s ago. -/
def syncSkips (st : VideoSyncState) (now target : ℚ) (force : Bool) : Bool :=
  if force then false
  else
    match st.lastVideoTime with
    | none => false
    | some t =>
      if |target - predictedVideoTime st now t| < 7/20 then true
      else
        match st.lastCmdAt with
        | some c => if now - c < 3/5 then true else false
        | none => false

/-- C7 counterexample: non-forced request with `target = 12`, predicted
`10.5` (so `|diff| = 1.5 ≥ 0.35`), but a sync command was issued 0.1 s ago:
the code SKIPS the seek, while the claim ("skip iff |diff| < 0.35 AND recent
command"; "in particular |diff| ≥ 0.35 issues the seek") requires it to be
issued — the code's conditions are OR-ed, not AND-ed. -/
theorem C7_counterexample :
    syncSkips ⟨some 10, true, some (199/2), some (999/10)⟩ 100 12 false = true ∧
    predictedVideoTime ⟨some 10, true, some (199/2), some (999/10)⟩ 100 10 = 21/2 ∧
    ¬ (|(12 : ℚ) - 21/2| < 7/20) := by
  refine ⟨?_, ?_, by rw [abs_of_nonneg (by norm_num)]; norm_num⟩ <;>
    norm_num [syncSkips, predictedVideoTime, abs_of_nonneg]

/-- C7 (amended): for a known last video time, the predicted time is the last
reported time extrapolated by elapsed wall clock when playing; a forced
request always issues the command; a non-forced request is skipped iff
`|target - predicted| < 0.35` OR a previous sync command was issued less than
0.6 s ago (the two throttles are alternatives, not a conjunction). -/
theorem C7_sync_amended (st : VideoSyncState) (now target t : ℚ)
    (h : st.lastVideoTime = some t) :
    syncSkips st now target true = false ∧
    (syncSkips st now target false = true ↔
      (|target - predictedVideoTime st now t| < 7/20 ∨
        ∃ c, st.lastCmdAt = some c ∧ now - c < 3/5)) ∧
    (st.videoPlaying = true → ∀ r, st.lastReportTs = some r →
      predictedVideoTime st now t = t + max 0 (now - r)) := by
  refine ⟨rfl, ?_, ?_⟩
  · unfold syncSkips
    rw [h]
    by_cases habs : |target - predictedVideoTime st now t| < 7/20
    · simp [habs]
    · cases hc : st.lastCmdAt with
      | none => simp [habs, hc]
      | some c =>
        by_cases ht : now - c < 3/5 <;> simp [habs, hc, ht]
  · intro hp r hr
    unfold predictedVideoTime
    rw [hp, hr]
    simp

/-- C7 witness: Scenario D — audio update to `t = 12.0`, last reported video
time `10.0` while playing with `0.5` s elapsed gives predicted `10.5`;
`|12 - 10.5| = 1.5 ≥ 0.35` and no prior sync command, so the seek command is
issued (not skipped). -/
theorem C7_witness :
    predictedVideoTime ⟨some 10, true, some (199/2), none⟩ 100 10 = 21/2 ∧
    syncSkips ⟨some 10, true, some (199/2), none⟩ 100 12 false = false := by
  have h := C7_sync_amended ⟨some 10, true, some (199/2), none⟩ 100 12 10 rfl
  have hpred : predictedVideoTime ⟨some 10, true, some (199/2), none⟩ 100 10 = 21/2 := by
    rw [h.2.2 rfl (199/2) rfl]
    norm_num
  refine ⟨hpred, ?_⟩
  cases hb : syncSkips ⟨some 10, true, some (199/2), none⟩ 100 12 false with
  | false => rfl
  | true =>
    exfalso
    rcases h.2.1.mp hb with habs | ⟨c, hc, -⟩
    · rw [hpred] at habs
      rw [abs_of_nonneg (by norm_num)] at habs
      norm_num at habs
    · exact absurd hc (by simp)

/-! ## Auto-pause resume index and empty-track behavior -/

/-- `_auto_pause_hit`'s pending-resume computation (player.py:1260):
`min(self.current_index + 1, len(self.orig_entries) - 1)` in Python integer
arithmetic (so `-1` on an empty list). -/
def pendingResumeIndex (currentIndex : ℕ) (numEntries : ℕ) : ℤ :=
  min ((currentIndex : ℤ) + 1) ((numEntries : ℤ) - 1)

/-- C10: whenever the auto-pause deadline fires during normal (non-preview)
playback, the pending resume index `min(current_index + 1, n - 1)` is a valid
index for every non-empty entry list — even on the last segment — and the
subsequent resume lookup `orig_entries[pending]` succeeds. -/
theorem C10_pending_resume_valid (entries : List SubtitleEntry) (i : ℕ)
    (h : entries ≠ []) :
    0 ≤ pendingResumeIndex i entries.length ∧
    (pendingResumeIndex i entries.length).toNat < entries.length ∧
    (entries[(pendingResumeIndex i entries.length).toNat]?).isSome = true := by
  have hlen : 0 < entries.length := List.length_pos.mpr h
  have h1 : 0 ≤ pendingResumeIndex i entries.length := by
    unfold pendingResumeIndex
    rcases le_total ((i : ℤ) + 1) ((entries.length : ℤ) - 1) with hc | hc
    · rw [min_eq_left hc]; omega
    · rw [min_eq_right hc]; omega
  have h2 : (pendingResumeIndex i entries.length).toNat < entries.length := by
    unfold pendingResumeIndex at h1 ⊢
    rcases le_total ((i : ℤ) + 1) ((entries.length : ℤ) - 1) with hc | hc
    · rw [min_eq_left hc] at h1 ⊢; omega
    · rw [min_eq_right hc] at h1 ⊢; omega
  refine ⟨h1, h2, ?_⟩
  rw [List.getElem?_eq_getElem h2]
  rfl

/-- C10 witness: a single-entry list with the deadline firing on its last
(only) segment still yields the valid pending index 0. -/
theorem C10_witness :
    ([SubtitleEntry.mk 1 0 1 "a"] ≠ []) ∧
    pendingResumeIndex 0 1 = 0 ∧
    (([SubtitleEntry.mk 1 0 1 "a"] :
        List SubtitleEntry)[(pendingResumeIndex 0 1).toNat]?).isSome = true :=
  ⟨by simp, by norm_num [pendingResumeIndex],
    (C10_pending_resume_valid [SubtitleEntry.mk 1 0 1 "a"] 0 (by simp)).2.2⟩

/-- The paused-branch entry lookup of `toggle_play` (player.py:1231-1241):
the resume path reads `orig_entries[pending]`; otherwise, unless an adjusted
preview is active, it reads `orig_entries[current_index]`.  `Except.error ()`
models the `IndexError` Python raises on an out-of-range subscript;
`Except.ok none` means no lookup is performed. -/
def togglePlayStartLookup (entries : List SubtitleEntry) (waiting : Bool)
    (pending : Option ℕ) (preview : Bool) (currentIndex : ℕ) :
    Except Unit (Option SubtitleEntry) :=
  if waiting = true ∧ pending ≠ none then
    match pending with
    | some k =>
      match entries[k]? with
      | some x => Except.ok (some x)
      | none => Except.error ()
    | none => Except.ok none
  else if preview = false then
    match entries[currentIndex]? with
    | some x => Except.ok (some x)
    | none => Except.error ()
  else
    Except.ok none

/-- C9: pressing play (`toggle_play`) while the subtitle track is empty, in
the initial paused state (`waiting_for_resume = False`,
`is_adjusted_preview = False`, `current_index = 0`), evaluates
`self.orig_entries[self.current_index]` on the empty list and raises
`IndexError` — contradicting the claim (and spec §7) that every index-based
operation treats an empty track as a valid no-content state; index resolution
itself does return 0 without raising. -/
theorem C9_toggle_play_empty_raises :
    togglePlayStartLookup [] false none false 0 = Except.error () ∧
    (∀ p : ℚ, findSubtitleIndex [] p = 0) ∧
    (∀ p : ℚ, findIndexAtClaim [] p = 0) := by
  exact ⟨rfl, fun p => rfl, fun p => rfl⟩

/-! ## Translation alignment: `_align_translation_entries` (player.py:2003-2059) -/

/-- The cursor-advance `while` loop: skip translation entries whose start time
is more than `tolerance` earlier than the current original's start time. -/
def advanceJ (trans : List SubtitleEntry) (tol s : ℚ) (j : ℕ) : ℕ :=
  match h : trans[j]? with
  | none => j
  | some x => if x.start_time < s - tol then advanceJ trans tol s (j + 1) else j
termination_by trans.length - j
decreasing_by
  have : j < trans.length := (List.getElem?_eq_some.mp h).1
  omega

/-- The candidate list `{j, j-1}` built by the alignment loop (indices checked
for range exactly as in the source). -/
def alignCands (trans : List SubtitleEntry) (j1 : ℕ) : List ℕ :=
  (if j1 < trans.length then [j1] else []) ++ (if 1 ≤ j1 then [j1 - 1] else [])

/-- One step of the best-candidate fold: skip consumed indices, keep the
candidate with the smallest `|translation.start - original.start|` among
those within tolerance (`best = none` plays the role of
`best_delta = inf`). -/
def pickStep (trans : List SubtitleEntry) (used : List ℕ) (tol oS : ℚ)
    (best : Option (ℕ × ℚ)) (idx : ℕ) : Option (ℕ × ℚ) :=
  if idx ∈ used then best
  else
    match trans[idx]? with
    | none => best
    | some x =>
      let d := |x.start_time - oS|
      match best with
      | none => if d ≤ tol then some (idx, d) else none
      | some (bi, bd) => if d ≤ tol ∧ d < bd then some (idx, d) else some (bi, bd)

/-- The candidate-selection loop over `{j, j-1}`. -/
def pickBest (trans : List SubtitleEntry) (used : List ℕ) (tol oS : ℚ)
    (cands : List ℕ) : Option (ℕ × ℚ) :=
  cands.foldl (pickStep trans used tol oS) none

/-- The main alignment loop, carrying the monotonic cursor `j` and the set of
consumed translation indices. -/
def alignAux (trans : List SubtitleEntry) (tol : ℚ) :
    List SubtitleEntry → ℕ → List ℕ → List SubtitleEntry
  | [], _, _ => []
  | o :: os, j, used =>
    let j1 := advanceJ trans tol o.start_time j
    match pickBest trans used tol o.start_time (alignCands trans j1) with
    | some (bi, _) =>
      ⟨o.index, o.start_time, o.end_time, ((trans[bi]?).map (fun x => x.text)).getD ""⟩ ::
        alignAux trans tol os (if j1 ≤ bi then bi + 1 else j1) (bi :: used)
    | none =>
      ⟨o.index, o.start_time, o.end_time, ""⟩ :: alignAux trans tol os j1 used

/-- `_align_translation_entries(orig, trans, tolerance)`. -/
def alignTranslationToOriginal (orig trans : List SubtitleEntry) (tol : ℚ) :
    List SubtitleEntry :=
  alignAux trans tol orig 0 []

/-- The soundness invariant of the candidate fold: any selected candidate is a
real translation entry whose start time is within tolerance. -/
def PickInv (trans : List SubtitleEntry) (tol oS : ℚ) (acc : Option (ℕ × ℚ)) : Prop :=
  ∀ bi d, acc = some (bi, d) →
    ∃ x, trans[bi]? = some x ∧ d = |x.start_time - oS| ∧ d ≤ tol

theorem pickStep_sound (trans : List SubtitleEntry) (used : List ℕ) (tol oS : ℚ)
    (acc : Option (ℕ × ℚ)) (idx : ℕ) (h : PickInv trans tol oS acc) :
    PickInv trans tol oS (pickStep trans used tol oS acc idx) := by
  unfold pickStep
  split_ifs with hmem
  · exact h
  · cases hx : trans[idx]? with
    | none => exact h
    | some x =>
      cases acc with
      | none =>
        dsimp only
        split_ifs with hd
        · intro bi d hbd
          rw [Option.some.injEq, Prod.mk.injEq] at hbd
          obtain ⟨h1, h2⟩ := hbd
          subst h1
          subst h2
          exact ⟨x, hx, rfl, hd⟩
        · intro bi d hbd
          exact absurd hbd (by simp)
      | some pr =>
        obtain ⟨bi0, bd0⟩ := pr
        dsimp only
        split_ifs with hd
        · intro bi d hbd
          rw [Option.some.injEq, Prod.mk.injEq] at hbd
          obtain ⟨h1, h2⟩ := hbd
          subst h1
          subst h2
          exact ⟨x, hx, rfl, hd.1⟩
        · exact h

theorem pickBest_sound (trans : List SubtitleEntry) (used : List ℕ) (tol oS : ℚ)
    (cands : List ℕ) :
    PickInv trans tol oS (pickBest trans used tol oS cands) := by
  unfold pickBest
  have hgen : ∀ (cs : List ℕ) (acc : Option (ℕ × ℚ)), PickInv trans tol oS acc →
      PickInv trans tol oS (cs.foldl (pickStep trans used tol oS) acc) := by
    intro cs
    induction cs with
    | nil => intro acc h; exact h
    | cons c cs ih =>
      intro acc h
      exact ih _ (pickStep_sound trans used tol oS acc c h)
  exact hgen cands none (by intro bi d h; exact absurd h (by simp))

/-- C5: the alignment pass returns exactly one entry per original, each
carrying the original's index and timing, and each text is either a
translation entry's text whose start time is within tolerance of the
original's start time, or the empty string. -/
theorem C5_align_round_trip (orig trans : List SubtitleEntry) (tol : ℚ) :
    (alignTranslationToOriginal orig trans tol).length = orig.length ∧
    ∀ (i : ℕ) (o : SubtitleEntry), orig[i]? = some o →
      ∃ a : SubtitleEntry, (alignTranslationToOriginal orig trans tol)[i]? = some a ∧
        a.index = o.index ∧ a.start_time = o.start_time ∧ a.end_time = o.end_time ∧
        (a.text = "" ∨
          ∃ x ∈ trans, a.text = x.text ∧ |x.start_time - o.start_time| ≤ tol) := by
  unfold alignTranslationToOriginal
  have hgen : ∀ (os : List SubtitleEntry) (j : ℕ) (used : List ℕ),
      (alignAux trans tol os j used).length = os.length ∧
      ∀ (i : ℕ) (o : SubtitleEntry), os[i]? = some o →
        ∃ a : SubtitleEntry, (alignAux trans tol os j used)[i]? = some a ∧
          a.index = o.index ∧ a.start_time = o.start_time ∧ a.end_time = o.end_time ∧
          (a.text = "" ∨
            ∃ x ∈ trans, a.text = x.text ∧ |x.start_time - o.start_time| ≤ tol) := by
    intro os
    induction os with
    | nil =>
      intro j used
      refine ⟨rfl, ?_⟩
      intro i o ho
      simp at ho
    | cons o os ih =>
      intro j used
      simp only [alignAux]
      cases hp : pickBest trans used tol o.start_time
          (alignCands trans (advanceJ trans tol o.start_time j)) with
      | some pr =>
        obtain ⟨bi, d⟩ := pr
        constructor
        · simp only [List.length_cons]
          rw [(ih (if advanceJ trans tol o.start_time j ≤ bi then bi + 1
              else advanceJ trans tol o.start_time j) (bi :: used)).1]
        · intro i o' ho'
          cases i with
          | zero =>
            rw [show ((o :: os) : List SubtitleEntry)[0]? = some o from by simp] at ho'
            rw [Option.some.injEq] at ho'
            subst ho'
            obtain ⟨x, hx, hd, hdt⟩ := pickBest_sound trans used tol o.start_time
              (alignCands trans (advanceJ trans tol o.start_time j)) bi d hp
            have hmem : x ∈ trans := by
              obtain ⟨hlt, heq⟩ := List.getElem?_eq_some.mp hx
              exact heq ▸ List.getElem_mem hlt
            have htext : (((trans[bi]?).map (fun e => e.text)).getD "") = x.text := by
              rw [hx]
              rfl
            exact ⟨⟨o.index, o.start_time, o.end_time,
              ((trans[bi]?).map (fun e => e.text)).getD ""⟩, by simp, rfl, rfl, rfl,
              Or.inr ⟨x, hmem, htext, hd ▸ hdt⟩⟩
          | succ i' =>
            rw [show ((o :: os) : List SubtitleEntry)[i' + 1]? = os[i']? from by simp] at ho'
            obtain ⟨a, ha, h1, h2, h3, h4⟩ := (ih (if advanceJ trans tol o.start_time j ≤ bi
              then bi + 1 else advanceJ trans tol o.start_time j) (bi :: used)).2 i' o' ho'
            exact ⟨a, by simpa using ha, h1, h2, h3, h4⟩
      | none =>
        constructor
        · simp only [List.length_cons]
          rw [(ih (advanceJ trans tol o.start_time j) used).1]
        · intro i o' ho'
          cases i with
          | zero =>
            rw [show ((o :: os) : List SubtitleEntry)[0]? = some o from by simp] at ho'
            rw [Option.some.injEq] at ho'
            subst ho'
            exact ⟨⟨o.index, o.start_time, o.end_time, ""⟩, by simp, rfl, rfl, rfl,
              Or.inl rfl⟩
          | succ i' =>
            rw [show ((o :: os) : List SubtitleEntry)[i' + 1]? = os[i']? from by simp] at ho'
            obtain ⟨a, ha, h1, h2, h3, h4⟩ :=
              (ih (advanceJ trans tol o.start_time j) used).2 i' o' ho'
            exact ⟨a, by simpa using ha, h1, h2, h3, h4⟩
  exact hgen orig 0 []

/-- C5 witness: a single original `(0,2)` and a translation starting at `0.5`
(within the default 2 s tolerance) produce one entry with the original's
timing. -/
theorem C5_witness :
    (alignTranslationToOriginal [SubtitleEntry.mk 1 0 2 "hello"]
        [SubtitleEntry.mk 1 (1/2) 2 "bonjour"] 2).length = 1 ∧
    ∃ a, (alignTranslationToOriginal [SubtitleEntry.mk 1 0 2 "hello"]
        [SubtitleEntry.mk 1 (1/2) 2 "bonjour"] 2)[0]? = some a ∧
      a.start_time = 0 ∧ a.end_time = 2 := by
  have h := C5_align_round_trip [SubtitleEntry.mk 1 0 2 "hello"]
    [SubtitleEntry.mk 1 (1/2) 2 "bonjour"] 2
  refine ⟨h.1, ?_⟩
  obtain ⟨a, ha, -, hs, he, -⟩ := h.2 0 (SubtitleEntry.mk 1 0 2 "hello") (by simp)
  exact ⟨a, ha, by rw [hs], by rw [he]⟩

/-! ## Extended-selection combined texts
(`set_extend_count` player.py:1637-1680, `update_subtitle_display`
player.py:1121-1157, `on_translation_changed` player.py:918-945) -/

/-- Python's `str.strip()`: remove whitespace from both ends. -/
def pyStrip (s : String) : String :=
  ⟨((s.data.dropWhile Char.isWhitespace).reverse.dropWhile Char.isWhitespace).reverse⟩

/-- The original texts of entries `b` through `e`
(`[self.orig_entries[i].text for i in range(base_idx, end_idx + 1)]`;
in the code the range is always within the list). -/
def extendRangeTexts (entries : List SubtitleEntry) (b e : ℕ) : List String :=
  ((entries.drop b).take (e + 1 - b)).map (fun x => x.text)

/-- The rebuilt combined original text
(`" ".join(p.strip() for p in orig_parts if p).strip()`, identical in
`set_extend_count` and `update_subtitle_display`): empty texts are skipped,
the kept texts are stripped, and the joined result is stripped again. -/
def combinedOrig (entries : List SubtitleEntry) (b e : ℕ) : String :=
  pyStrip (String.intercalate " "
    (((extendRangeTexts entries b e).filter (fun p => p ≠ "")).map pyStrip))

/-- The effective translation at index `i`: the user override when present,
otherwise the parsed translation text, otherwise the empty string
(update_subtitle_display lines 1150-1156; `t or ""` is the identity on
strings). -/
def effectiveTranslationAt (trans : List SubtitleEntry) (ovr : ℕ → Option String)
    (i : ℕ) : String :=
  match ovr i with
  | some t => t
  | none =>
    match trans[i]? with
    | some x => x.text
    | none => ""

/-- The rebuilt combined translation text shown (and exported) while extended:
the newline-join over `i ∈ [b, e]` of the effective translation at `i`
(update_subtitle_display lines 1148-1157). -/
def combinedTransShown (trans : List SubtitleEntry) (ovr : ℕ → Option String)
    (b e : ℕ) : String :=
  String.intercalate "\n"
    ((List.range' b (e + 1 - b)).map (fun i => effectiveTranslationAt trans ovr i))

/-- The claim's phrasing of the combined original text: the plain space-join
of the trimmed original texts of entries `b` through `e` (no skipping of
empty texts). -/
def combinedOrigClaim (entries : List SubtitleEntry) (b e : ℕ) : String :=
  String.intercalate " " ((extendRangeTexts entries b e).map pyStrip)

/-- The amended claim's part list for the combined original text: one stripped
part per entry in `[b, e]` whose text is non-empty. -/
def origPartsClaim (entries : List SubtitleEntry) : ℕ → ℕ → List String
  | b, e =>
    if _h : b ≤ e then
      match entries[b]? with
      | some x =>
        if x.text = "" then origPartsClaim entries (b + 1) e
        else pyStrip x.text :: origPartsClaim entries (b + 1) e
      | none => origPartsClaim entries (b + 1) e
    else []
termination_by b e => e + 1 - b
decreasing_by all_goals omega

/-- The amended claim's per-index line list for the combined translation. -/
def transLinesClaim (trans : List SubtitleEntry) (ovr : ℕ → Option String) :
    ℕ → ℕ → List String
  | b, e =>
    if h : b ≤ e then
      effectiveTranslationAt trans ovr b :: transLinesClaim trans ovr (b + 1) e
    else []
termination_by b e => e + 1 - b
decreasing_by omega

/-- C6 counterexample: with entry texts `["a", "", "b"]` over `[b,e] = [0,2]`,
the code rebuilds the combined original text as `"a b"` (the empty text is
skipped before joining), while the claim's plain space-join of the trimmed
texts gives `"a  b"` (a double space). -/
theorem C6_counterexample :
    combinedOrig
      [SubtitleEntry.mk 1 0 1 "a", SubtitleEntry.mk 2 1 2 "", SubtitleEntry.mk 3 2 3 "b"]
      0 2 = "a b" ∧
    combinedOrigClaim
      [SubtitleEntry.mk 1 0 1 "a", SubtitleEntry.mk 2 1 2 "", SubtitleEntry.mk 3 2 3 "b"]
      0 2 = "a  b" ∧
    ("a b" : String) ≠ "a  b" := by
  refine ⟨by decide, by decide, by decide⟩

theorem extendRangeTexts_cons (entries : List SubtitleEntry) (b e : ℕ)
    (hb : b < entries.length) (hbe : b ≤ e) :
    extendRangeTexts entries b e = entries[b].text :: extendRangeTexts entries (b + 1) e := by
  unfold extendRangeTexts
  rw [List.drop_eq_getElem_cons hb, show e + 1 - b = (e + 1 - (b + 1)) + 1 from by omega,
    List.take_succ_cons, List.map_cons]

theorem extendRangeTexts_nil (entries : List SubtitleEntry) (b e : ℕ) (hbe : e < b) :
    extendRangeTexts entries b e = [] := by
  unfold extendRangeTexts
  rw [show e + 1 - b = 0 from by omega, List.take_zero, List.map_nil]

theorem origParts_eq (entries : List SubtitleEntry) (e : ℕ) (he : e < entries.length) :
    ∀ (n b : ℕ), b + n = e + 1 →
      ((extendRangeTexts entries b e).filter (fun p => p ≠ "")).map pyStrip =
        origPartsClaim entries b e := by
  intro n
  induction n with
  | zero =>
    intro b hb
    rw [extendRangeTexts_nil entries b e (by omega)]
    unfold origPartsClaim
    rw [dif_neg (by omega)]
    rfl
  | succ n ih =>
    intro b hb
    have hbe : b ≤ e := by omega
    have hblen : b < entries.length := by omega
    rw [extendRangeTexts_cons entries b e hblen hbe]
    unfold origPartsClaim
    rw [dif_pos hbe, List.getElem?_eq_getElem hblen]
    dsimp only
    by_cases ht : entries[b].text = ""
    · rw [if_pos ht]
      rw [List.filter_cons_of_neg (by simpa using ht)]
      exact ih (b + 1) (by omega)
    · rw [if_neg ht]
      rw [List.filter_cons_of_pos (by simpa using ht), List.map_cons]
      rw [ih (b + 1) (by omega)]

theorem transLines_eq (trans : List SubtitleEntry) (ovr : ℕ → Option String) (e : ℕ) :
    ∀ (n b : ℕ), b + n = e + 1 →
      (List.range' b n).map (fun i => effectiveTranslationAt trans ovr i) =
        transLinesClaim trans ovr b e := by
  intro n
  induction n with
  | zero =>
    intro b hb
    unfold transLinesClaim
    rw [dif_neg (by omega)]
    rfl
  | succ n ih =>
    intro b hb
    rw [List.range'_succ, List.map_cons]
    unfold transLinesClaim
    rw [dif_pos (show b ≤ e by omega)]
    rw [ih (b + 1) (by omega)]

/-- C6 (amended): on every extend-count change into `Active(count)` with base
`b` and end `e = b + count`, the rebuilt combined original text is the
stripped space-join of the stripped texts of those entries in `[b, e]` whose
text is non-empty (empty texts are skipped, unlike the claim's plain join);
the rebuilt combined translation text is the newline-join over `i ∈ [b, e]`
of the effective translation at `i` — the per-index override when present,
otherwise the parsed text — with exactly one line per index and an empty
line whenever the translation is missing. -/
theorem C6_extend_texts_amended (entries trans : List SubtitleEntry)
    (ovr : ℕ → Option String) (b e : ℕ) (hbe : b ≤ e) (he : e < entries.length) :
    combinedOrig entries b e =
      pyStrip (String.intercalate " " (origPartsClaim entries b e)) ∧
    combinedTransShown trans ovr b e =
      String.intercalate "\n" (transLinesClaim trans ovr b e) ∧
    (transLinesClaim trans ovr b e).length = e + 1 - b ∧
    (∀ k, k < e + 1 - b →
      (transLinesClaim trans ovr b e)[k]? =
        some (effectiveTranslationAt trans ovr (b + k))) ∧
    (∀ i, ovr i = none → trans[i]? = none →
      effectiveTranslationAt trans ovr i = "") ∧
    (∀ i t, ovr i = some t → effectiveTranslationAt trans ovr i = t) := by
  have hlines := transLines_eq trans ovr e (e + 1 - b) b (by omega)
  refine ⟨?_, ?_, ?_, ?_, ?_, ?_⟩
  · unfold combinedOrig
    rw [origParts_eq entries e he (e + 1 - b) b (by omega)]
  · unfold combinedTransShown
    rw [hlines]
  · rw [← hlines, List.length_map, List.length_range']
  · intro k hk
    rw [← hlines, List.getElem?_map]
    have hr : (List.range' b (e + 1 - b))[k]? = some (b + k) := by
      rw [List.getElem?_range' _ _ (by simpa using hk)]
      norm_num
    rw [hr]
    rfl
  · intro i h1 h2
    unfold effectiveTranslationAt
    rw [h1, h2]
  · intro i t h1
    unfold effectiveTranslationAt
    rw [h1]

/-- C6 witness: `b = 0`, `e = 1`, parsed translations `["x", "y"]` with an
override at index 1 and a missing translation simulated at a fresh index. -/
theorem C6_witness :
    (0 : ℕ) ≤ 1 ∧ (1 : ℕ) < 2 ∧
    combinedTransShown [SubtitleEntry.mk 1 0 1 "x", SubtitleEntry.mk 2 1 2 "y"]
      (fun i => if i = 1 then some "edited" else none) 0 1 =
      String.intercalate "\n"
        (transLinesClaim [SubtitleEntry.mk 1 0 1 "x", SubtitleEntry.mk 2 1 2 "y"]
          (fun i => if i = 1 then some "edited" else none) 0 1) ∧
    combinedOrig [SubtitleEntry.mk 1 0 1 "a", SubtitleEntry.mk 2 1 2 "b"] 0 1 =
      pyStrip (String.intercalate " "
        (origPartsClaim [SubtitleEntry.mk 1 0 1 "a", SubtitleEntry.mk 2 1 2 "b"] 0 1)) := by
  refine ⟨by norm_num, by norm_num, ?_, ?_⟩
  · exact (C6_extend_texts_amended [SubtitleEntry.mk 1 0 1 "x", SubtitleEntry.mk 2 1 2 "y"]
      [SubtitleEntry.mk 1 0 1 "x", SubtitleEntry.mk 2 1 2 "y"]
      (fun i => if i = 1 then some "edited" else none) 0 1 (by norm_num) (by norm_num)).2.1
  · exact (C6_extend_texts_amended [SubtitleEntry.mk 1 0 1 "a", SubtitleEntry.mk 2 1 2 "b"]
      [] (fun _ => none) 0 1 (by norm_num) (by norm_num)).1
